import Mathlib

/-!
# Verification of the yanimator core (src/anim_parser.rs)

Shallow embedding of the OAM decoder, tile-index resolver, cel assembler and
animation timeline from `src/anim_parser.rs`, with theorems settling the
specification's claims about them.

Modelling conventions:
* `u8`/`u16`/`usize` values are `Nat`; the source's `as u8` truncation is
  `% 256` (`toU8` when the operand is signed); `i8`/`i16`/`isize` values are
  `Int`, with the `as i8` narrowing cast modelled by `toI8`.
* Rust operations that can panic (out-of-bounds indexing, overflowing
  `u8`/`usize` arithmetic, `Vec::remove` on an empty vector) are modelled in
  `PResult`, whose `panic` constructor is the panic outcome; an `Option`
  return in the source stays an `Option` in the embedding.
* Byte slices are `List Nat`; where the source forms a 16-bit word from two
  bytes, the bytes are first reduced `% 256`, encoding the `u8` argument type.
-/

/-- Outcome of a Rust computation that may panic: either a panic or a value. -/
inductive PResult (α : Type) where
  | panic : PResult α
  | ok : α → PResult α
deriving DecidableEq, Repr

/-- The Rust `as i8` narrowing cast on a signed value: two's-complement
truncation to the range `[-128, 127]`. -/
def toI8 (n : Int) : Int := (n + 128) % 256 - 128

/-- The Rust `as u8` truncating cast on a signed value. -/
def toU8 (n : Int) : Nat := (n % 256).toNat

/-- `OAMShape` from src/anim_parser.rs. -/
inductive OAMShape where
  | Square
  | Horizontal
  | Vertical
deriving DecidableEq, Repr

/-- `OAMSize` from src/anim_parser.rs. -/
inductive OAMSize where
  | Size0
  | Size1
  | Size2
  | Size3
deriving DecidableEq, Repr

/-- `OAMFlip` from src/anim_parser.rs. -/
inductive OAMFlip where
  | None
  | Horizontal
  | Vertical
  | Both
deriving DecidableEq, Repr

/-- The `OAM` struct from src/anim_parser.rs.  `x`, `y` are `i8` (here `Int`),
`palette` and `tile` are `usize` (here `Nat`). -/
structure OAM where
  shape : OAMShape
  size : OAMSize
  flip : OAMFlip
  x : Int
  y : Int
  palette : Nat
  tile : Nat
  selected : Bool
  zindex : Nat
deriving DecidableEq, Repr

/-- `OAM::new`: decodes three packed 16-bit words from six bytes
(`0xSYYY, 0xFXXX, 0xPTTT`).  The indexing `bytes[0]`..`bytes[5]` panics when
fewer than six bytes are supplied, hence the `PResult`. -/
def OAM.new : List Nat → PResult OAM
  | b0 :: b1 :: b2 :: b3 :: b4 :: b5 :: _ =>
    let word1 := (b0 % 256) * 256 + b1 % 256
    let word2 := (b2 % 256) * 256 + b3 % 256
    let word3 := (b4 % 256) * 256 + b5 % 256
    let shape :=
      match word1 / 4096 with
      | 0x0 => OAMShape.Square
      | 0x4 => OAMShape.Horizontal
      | 0x8 => OAMShape.Vertical
      | _ => OAMShape.Square
    let y0 : Int := (word1 % 4096 : Nat)
    let y1 : Int := if 0x80 ≤ y0 then y0 - 0x100 else y0
    let flip_size_nibble := word2 / 4096
    let size :=
      match flip_size_nibble / 4 * 4 with
      | 0x0 => OAMSize.Size0
      | 0x4 => OAMSize.Size1
      | 0x8 => OAMSize.Size2
      | 0xc => OAMSize.Size3
      | _ => OAMSize.Size0
    let flip :=
      match flip_size_nibble % 4 with
      | 0x0 => OAMFlip.None
      | 0x1 => OAMFlip.Horizontal
      | 0x2 => OAMFlip.Vertical
      | 0x3 => OAMFlip.Both
      | _ => OAMFlip.None
    let x0 : Int := (word2 % 4096 : Nat)
    let x1 : Int := if 0x80 ≤ x0 then x0 - 0x200 else x0
    let palette := word3 / 4096
    let tile := word3 % 4096
    .ok { shape := shape, size := size, flip := flip,
          x := toI8 x1, y := toI8 y1, palette := palette, tile := tile,
          selected := false, zindex := 0 }
  | _ => .panic

/-- `OAM::from_bin`: decodes one 8-byte binary OAM record; the indexing
`bytes[0]`..`bytes[7]` panics when fewer than eight bytes are supplied. -/
def OAM.from_bin : List Nat → PResult OAM
  | b0 :: b1 :: b2 :: b3 :: b4 :: b5 :: b6 :: b7 :: _ =>
    let shape :=
      match b0 with
      | 0 => OAMShape.Square
      | 1 => OAMShape.Horizontal
      | 2 => OAMShape.Vertical
      | _ => OAMShape.Square
    let size :=
      match b1 with
      | 0 => OAMSize.Size0
      | 1 => OAMSize.Size1
      | 2 => OAMSize.Size2
      | 3 => OAMSize.Size3
      | _ => OAMSize.Size0
    let flip :=
      match b2 with
      | 0 => OAMFlip.None
      | 1 => OAMFlip.Horizontal
      | 2 => OAMFlip.Vertical
      | 3 => OAMFlip.Both
      | _ => OAMFlip.None
    .ok { shape := shape, size := size, flip := flip,
          x := toI8 b3, y := toI8 b4, palette := b5 % 256,
          tile := (b6 % 256) * 256 + b7 % 256,
          selected := false, zindex := 0 }
  | _ => .panic

/-- `OAM::get_width_and_height`: the fixed 3×4 table keyed by (shape, size),
giving (width, height) in tile units. -/
def OAM.get_width_and_height (o : OAM) : Nat × Nat :=
  match o.shape with
  | .Square =>
    match o.size with
    | .Size0 => (1, 1)
    | .Size1 => (2, 2)
    | .Size2 => (4, 4)
    | .Size3 => (8, 8)
  | .Horizontal =>
    match o.size with
    | .Size0 => (2, 1)
    | .Size1 => (4, 1)
    | .Size2 => (4, 2)
    | .Size3 => (8, 4)
  | .Vertical =>
    match o.size with
    | .Size0 => (1, 2)
    | .Size1 => (1, 4)
    | .Size2 => (2, 4)
    | .Size3 => (4, 8)

/-- `OAM::get_sprite_indexes`: builds the height×width tile-index matrix,
visiting rows and columns in reversed order according to the flip mode and
computing `tile + x + y * 32` for each visited (y, x). -/
def OAM.get_sprite_indexes (o : OAM) : List (List Nat) :=
  let wh := o.get_width_and_height
  let width := wh.1
  let height := wh.2
  let y_range :=
    match o.flip with
    | .Vertical => (List.range height).reverse
    | .Both => (List.range height).reverse
    | _ => List.range height
  let x_range :=
    match o.flip with
    | .Horizontal => (List.range width).reverse
    | .Both => (List.range width).reverse
    | _ => List.range width
  y_range.map (fun y => x_range.map (fun x => o.tile + x + y * 32))

/-- `OAM::get_sprite_indexes_one_dimensional`: flattens the matrix by
appending each row in order, as the nested push loop does. -/
def OAM.get_sprite_indexes_one_dimensional (o : OAM) : List Nat :=
  (o.get_sprite_indexes).foldl (fun acc row => acc ++ row) []

/-- Stated from the claim for C5: y is the low 12 bits of word1, minus 0x100
when at least 0x80. -/
def packedYSpec (word1 : Nat) : Int :=
  let y : Int := (word1 % 4096 : Nat)
  if 0x80 ≤ y then y - 0x100 else y

/-- Stated from the claim for C5: x is the low 12 bits of word2, minus 0x200
when at least 0x80 (intentionally a different sign range than y). -/
def packedXSpec (word2 : Nat) : Int :=
  let x : Int := (word2 % 4096 : Nat)
  if 0x80 ≤ x then x - 0x200 else x

/-- Stated from the claim for C6: the source row visited at output row r;
Vertical and Both reverse the row traversal. -/
def rowTraversalSpec (flip : OAMFlip) (height r : Nat) : Nat :=
  match flip with
  | .Vertical => height - 1 - r
  | .Both => height - 1 - r
  | _ => r

/-- Stated from the claim for C6: the source column visited at output
column c; Horizontal and Both reverse the column traversal. -/
def colTraversalSpec (flip : OAMFlip) (width c : Nat) : Nat :=
  match flip with
  | .Horizontal => width - 1 - c
  | .Both => width - 1 - c
  | _ => c

/-- The name-scanning loop shared by the binary parsers: consumes bytes into
a string until a NUL byte, returning the name and the remaining bytes;
running past the end of the buffer panics. -/
def scanName : List Nat → PResult (String × List Nat)
  | [] => .panic
  | b :: rest =>
    if b = 0 then .ok ("", rest)
    else
      match scanName rest with
      | .panic => .panic
      | .ok (s, r) => .ok (⟨Char.ofNat b :: s.data⟩, r)

/-- The record-reading loop of `AnimationCel::from_bin`: reads `count`
consecutive 8-byte OAM records; slicing `&bin[.. + 8]` past the end of the
buffer panics. -/
def readOAMs : Nat → List Nat → PResult (List OAM)
  | 0, _ => .ok []
  | count + 1, bytes =>
    if bytes.length < 8 then .panic
    else
      match OAM.from_bin (bytes.take 8) with
      | .panic => .panic
      | .ok o =>
        match readOAMs count (bytes.drop 8) with
        | .panic => .panic
        | .ok os => .ok (o :: os)

/-- `AnimationCel` from src/anim_parser.rs. -/
structure AnimationCel where
  name : String
  oams : List OAM
deriving DecidableEq, Repr

/-- `AnimationCel::from_bin`: a NUL-terminated name, a count byte, then
`count` 8-byte OAM records.  The source's return type is `Option` but no
path returns `None`; all its failures are panics. -/
def AnimationCel.from_bin (bin : List Nat) : PResult (Option AnimationCel) :=
  match scanName bin with
  | .panic => .panic
  | .ok (name, rest) =>
    match rest with
    | [] => .panic
    | length :: rest2 =>
      match readOAMs length rest2 with
      | .panic => .panic
      | .ok oams => .ok (some { name := name, oams := oams })

/-- `AnimationFrame` from src/anim_parser.rs; `duration` is a `u8`. -/
structure AnimationFrame where
  cell : String
  duration : Nat
  id : Nat
deriving DecidableEq, Repr

/-- `PositionedAnimationFrame` from src/anim_parser.rs; `position` is an
`isize`. -/
structure PositionedAnimationFrame where
  cell : String
  position : Int
  id : Nat
deriving DecidableEq, Repr

/-- The `Animation` struct from src/anim_parser.rs. -/
structure Animation where
  frames : List AnimationFrame
  name : String
  current_frame : Nat
  duration : Nat
deriving DecidableEq, Repr

/-- The frame-accumulation loop of `Animation::from_bin`: bytes are cel-name
characters until a NUL, after which the following byte is the frame's
duration; reading that duration byte past the end of the buffer panics.
Returns the frames together with the accumulated total duration. -/
def animBinFrames (cell : String) (frame_id : Nat) :
    List Nat → PResult (List AnimationFrame × Nat)
  | [] => .ok ([], 0)
  | b :: rest =>
    if b = 0 then
      match rest with
      | [] => .panic
      | d :: rest2 =>
        match animBinFrames "" (frame_id + 1) rest2 with
        | .panic => .panic
        | .ok (fs, total) => .ok (⟨cell, d % 256, frame_id⟩ :: fs, total + d % 256)
    else animBinFrames (cell.push (Char.ofNat b)) frame_id rest

/-- `Animation::from_bin`: a NUL-terminated name, two further header bytes
skipped (`i += 3` from the NUL), then (cel-name, duration byte) pairs until
the buffer ends.  The source's `Option` return never takes the `None` path. -/
def Animation.from_bin (bin : List Nat) : PResult (Option Animation) :=
  match scanName bin with
  | .panic => .panic
  | .ok (name, rest) =>
    match animBinFrames "" 0 (rest.drop 2) with
    | .panic => .panic
    | .ok (fs, total) =>
      .ok (some { frames := fs, name := name, current_frame := 0, duration := total })

/-- Sum of the durations of a duration-form frame list. -/
def sumDur (frames : List AnimationFrame) : Nat :=
  (frames.map (fun f => f.duration)).sum

/-- `Animation::get_total_frames`: the duration-accumulation loop. -/
def Animation.get_total_frames (a : Animation) : Nat :=
  a.frames.foldl (fun result f => result + f.duration) 0

/-- The tick-walking loop of `get_anim_frame_from_frames`: one iteration per
elapsed tick; on advancing, `self.frames[result]` panics when the new index
is out of bounds.  `i` is reset to 0 on an advance and then incremented, so
it continues from 1. -/
def animFrameLoop (frames : List AnimationFrame) :
    Nat → Nat → Nat → AnimationFrame → PResult Nat
  | 0, result, _, _ => .ok result
  | n + 1, result, i, cur =>
    if i = cur.duration then
      match frames.get? (result + 1) with
      | none => .panic
      | some next => animFrameLoop frames n (result + 1) 1 next
    else animFrameLoop frames n result (i + 1) cur

/-- `Animation::get_anim_frame_from_frames`: returns 0 when the elapsed tick
count exceeds the total or the frame list is empty, otherwise walks the
frames tick by tick. -/
def Animation.get_anim_frame_from_frames (a : Animation) (frames : Nat) :
    PResult Nat :=
  if a.get_total_frames < frames then .ok 0
  else if a.frames.length = 0 then .ok 0
  else
    match a.frames.get? 0 with
    | none => .panic
    | some first => animFrameLoop a.frames frames 0 0 first

/-- The prefix-sum loop of `convert_duration_frames_to_positioned`,
carrying the running total. -/
def convertDurGo (total : Int) : List AnimationFrame → List PositionedAnimationFrame
  | [] => []
  | f :: rest => ⟨f.cell, total, f.id⟩ :: convertDurGo (total + f.duration) rest

/-- `Animation::convert_duration_frames_to_positioned`: frame k's position is
the sum of the durations of frames 0..k-1; cel name and id carry over. -/
def Animation.convert_duration_frames_to_positioned
    (frames : List AnimationFrame) : List PositionedAnimationFrame :=
  convertDurGo 0 frames

/-- Insertion into a position-sorted list, placing the new frame before the
first strictly later frame (and so after any frame with an equal
position). -/
def insertMonotone (p : PositionedAnimationFrame) :
    List PositionedAnimationFrame → List PositionedAnimationFrame
  | [] => [p]
  | q :: rest =>
    if p.position ≤ q.position then p :: q :: rest
    else q :: insertMonotone p rest

/-- The `sort_by(|a, b| a.position.cmp(&b.position))` call: a stable sort
ascending by position, modelled by insertion sort (elements inserted from
the right, each placed before the first element at an equal or later
position, so frames with equal positions keep their original order, as
with Rust's stable `sort_by`). -/
def sortByPosition : List PositionedAnimationFrame → List PositionedAnimationFrame
  | [] => []
  | p :: rest => insertMonotone p (sortByPosition rest)

/-- The duration-reconstruction loop of
`convert_positioned_frames_to_duration` over the sorted list: each frame's
duration is the next frame's position minus its own, the last frame's is the
total duration minus its own position, truncated `as u8`. -/
def convertPosGo (duration : Int) :
    List PositionedAnimationFrame → List AnimationFrame
  | [] => []
  | [f] => [⟨f.cell, toU8 (duration - f.position), f.id⟩]
  | f :: g :: rest =>
    ⟨f.cell, toU8 (g.position - f.position), f.id⟩ :: convertPosGo duration (g :: rest)

/-- `Animation::convert_positioned_frames_to_duration`: sorts ascending by
position, then reconstructs durations; an empty input yields an empty
result. -/
def Animation.convert_positioned_frames_to_duration
    (frames : List PositionedAnimationFrame) (duration : Nat) :
    List AnimationFrame :=
  convertPosGo duration (sortByPosition frames)

/-- The `iter_mut().find(..)` with position update in `move_anim_frame`: adds
the offset to the position of the first frame with the given id, failing if
no frame has it. -/
def editFirstPosition (frame_id : Nat) (offset : Int) :
    List PositionedAnimationFrame → Option (List PositionedAnimationFrame)
  | [] => none
  | f :: rest =>
    if f.id = frame_id then
      some ({ f with position := f.position + offset } :: rest)
    else (editFirstPosition frame_id offset rest).map (fun l => f :: l)

/-- `Animation::move_anim_frame`: fails (frames untouched) on id 0, offset 0
or an unknown id; otherwise moves the frame in positioned form and converts
back with the unchanged total duration. -/
def Animation.move_anim_frame (a : Animation) (frame_id : Nat) (offset : Int) :
    Option Animation :=
  if frame_id = 0 then none
  else if offset = 0 then none
  else
    match editFirstPosition frame_id offset
        (Animation.convert_duration_frames_to_positioned a.frames) with
    | none => none
    | some positioned =>
      some { a with
        frames := Animation.convert_positioned_frames_to_duration
          positioned a.duration }

/-- `Animation::insert_anim_frame`: appends a positioned frame with id
`positioned_frames.len() + 1` at the given position and converts back with
the unchanged total duration. -/
def Animation.insert_anim_frame (a : Animation) (cell : String)
    (position : Int) : Animation :=
  let positioned := Animation.convert_duration_frames_to_positioned a.frames
  let positioned2 := positioned ++ [⟨cell, position, positioned.length + 1⟩]
  { a with
    frames := Animation.convert_positioned_frames_to_duration
      positioned2 a.duration }

/-- `Animation::remove_anim_frame`: a no-op on id 0 or an unknown id;
otherwise removes the frame and adds its duration onto the preceding frame.
`self.frames[index - 1]` underflows when the removed frame is first, and the
`u8` `+=` overflows past 255 (a panic under debug assertions); both are the
panic outcome. -/
def Animation.remove_anim_frame (a : Animation) (frame_id : Nat) :
    PResult Animation :=
  if frame_id = 0 then .ok a
  else
    match a.frames.findIdx? (fun f => f.id == frame_id) with
    | none => .ok a
    | some index =>
      match a.frames.get? index with
      | none => .panic
      | some removed =>
        let frames2 := a.frames.eraseIdx index
        match index with
        | 0 => .panic
        | j + 1 =>
          match frames2.get? j with
          | none => .panic
          | some pred =>
            if 256 ≤ pred.duration + removed.duration then .panic
            else .ok { a with
              frames := frames2.set j
                ⟨pred.cell, pred.duration + removed.duration, pred.id⟩ }

/-- `Animation::get_minimum_duration`: the position of the last positioned
frame, 0 for an empty list.  The `as usize` cast is `Int.toNat`: positions
produced by `convert_duration_frames_to_positioned` are nonnegative prefix
sums. -/
def Animation.get_minimum_duration (a : Animation) : Nat :=
  let positioned := Animation.convert_duration_frames_to_positioned a.frames
  match positioned.getLast? with
  | none => 0
  | some last => last.position.toNat

/-- `Animation::update_duration`: rewrites only the last frame's duration to
`(self.duration - minimum_duration) as u8`; the `usize` subtraction panics
when the minimum exceeds the stored duration. -/
def Animation.update_duration (a : Animation) : PResult Animation :=
  let minimum_duration := a.get_minimum_duration
  match a.frames.getLast? with
  | none => .ok a
  | some lastf =>
    if a.duration < minimum_duration then .panic
    else .ok { a with
      frames := a.frames.dropLast ++
        [⟨lastf.cell, (a.duration - minimum_duration) % 256, lastf.id⟩] }

/-- The [3,5,2] animation of claim C3, total duration 10. -/
def animC3 : Animation :=
  { frames := [⟨"a", 3, 0⟩, ⟨"b", 5, 1⟩, ⟨"c", 2, 2⟩],
    name := "anim", current_frame := 0, duration := 10 }

/-- The two-frame animation of the C8 witness, total duration 12. -/
def animC8w : Animation :=
  { frames := [⟨"a", 3, 0⟩, ⟨"b", 5, 1⟩],
    name := "t", current_frame := 0, duration := 12 }

/-- Head position of a positioned list (0 for the empty list). -/
def headPosition : List PositionedAnimationFrame → Int
  | [] => 0
  | f :: _ => f.position

/-- A sorted positioned list is well spaced for total duration D when
consecutive gaps are below 256 and the final position lies within u8 range
below D: exactly the conditions under which the `as u8` casts in
`convert_positioned_frames_to_duration` do not truncate. -/
def okSpaced (D : Int) : List PositionedAnimationFrame → Prop
  | [] => True
  | [f] => f.position ≤ D ∧ D - f.position < 256
  | f :: g :: r =>
    f.position ≤ g.position ∧ g.position - f.position < 256 ∧
      okSpaced D (g :: r)

instance okSpacedDecidable (D : Int) :
    ∀ l : List PositionedAnimationFrame, Decidable (okSpaced D l)
  | [] => .isTrue trivial
  | [f] =>
    inferInstanceAs (Decidable (f.position ≤ D ∧ D - f.position < 256))
  | f :: g :: r =>
    have : Decidable (okSpaced D (g :: r)) := okSpacedDecidable D (g :: r)
    inferInstanceAs (Decidable (f.position ≤ g.position ∧
      g.position - f.position < 256 ∧ okSpaced D (g :: r)))

/-- The positioned list `insert_anim_frame` builds before converting back:
the existing frames in positioned form plus the new frame with fresh id
`positioned.length + 1`. -/
def insertedPositioned (a : Animation) (cell : String) (position : Int) :
    List PositionedAnimationFrame :=
  let positioned := Animation.convert_duration_frames_to_positioned a.frames
  positioned ++ [⟨cell, position, positioned.length + 1⟩]

/-- The two-frame animation of the C1 counterexample and witness, total
duration 8; the invariant sum = duration holds in it. -/
def animC1cex : Animation :=
  { frames := [⟨"a", 3, 0⟩, ⟨"b", 5, 1⟩],
    name := "t", current_frame := 0, duration := 8 }

/-- C9: the width/height lookup over (shape, size) is the fixed 12-entry
table with (Square,Size0)=(1,1), (Horizontal,Size3)=(8,4) and
(Vertical,Size2)=(2,4), and every entry is a positive pair between 1×1 and
8×8. -/
theorem claim_C9_width_height_table (o : OAM) :
    (o.shape = .Square → o.size = .Size0 → o.get_width_and_height = (1, 1)) ∧
    (o.shape = .Square → o.size = .Size1 → o.get_width_and_height = (2, 2)) ∧
    (o.shape = .Square → o.size = .Size2 → o.get_width_and_height = (4, 4)) ∧
    (o.shape = .Square → o.size = .Size3 → o.get_width_and_height = (8, 8)) ∧
    (o.shape = .Horizontal → o.size = .Size0 → o.get_width_and_height = (2, 1)) ∧
    (o.shape = .Horizontal → o.size = .Size1 → o.get_width_and_height = (4, 1)) ∧
    (o.shape = .Horizontal → o.size = .Size2 → o.get_width_and_height = (4, 2)) ∧
    (o.shape = .Horizontal → o.size = .Size3 → o.get_width_and_height = (8, 4)) ∧
    (o.shape = .Vertical → o.size = .Size0 → o.get_width_and_height = (1, 2)) ∧
    (o.shape = .Vertical → o.size = .Size1 → o.get_width_and_height = (1, 4)) ∧
    (o.shape = .Vertical → o.size = .Size2 → o.get_width_and_height = (2, 4)) ∧
    (o.shape = .Vertical → o.size = .Size3 → o.get_width_and_height = (4, 8)) ∧
    (1 ≤ o.get_width_and_height.1 ∧ o.get_width_and_height.1 ≤ 8 ∧
      1 ≤ o.get_width_and_height.2 ∧ o.get_width_and_height.2 ≤ 8) := by
  obtain ⟨s, z, f, x, y, p, t, sel, zi⟩ := o
  cases s <;> cases z <;> simp [OAM.get_width_and_height]

/-- C9 witness: the table theorem evaluated at a concrete square OAM. -/
theorem claim_C9_witness :
    OAM.get_width_and_height
      ⟨.Square, .Size0, .None, 0, 0, 0, 0, false, 0⟩ = (1, 1) :=
  (claim_C9_width_height_table ⟨.Square, .Size0, .None, 0, 0, 0, 0, false, 0⟩).1
    rfl rfl

/-- The narrowing cast always lands in the signed 8-bit range. -/
theorem toI8_bounds (n : Int) : -128 ≤ toI8 n ∧ toI8 n ≤ 127 := by
  unfold toI8
  have h1 : 0 ≤ (n + 128).emod 256 := Int.emod_nonneg _ (by decide)
  have h2 : (n + 128).emod 256 < 256 := Int.emod_lt_of_pos _ (by decide)
  omega

/-- C5: for every triple of packed 16-bit words (given as byte pairs), the
packed decoder takes y from the low 12 bits of word1 subtracting 0x100 when
y ≥ 0x80, takes x from the low 12 bits of word2 subtracting 0x200 when
x ≥ 0x80, and narrows the final x and y to the signed 8-bit range. -/
theorem claim_C5_packed_sign_decode (b0 b1 b2 b3 b4 b5 : Nat) :
    ∃ o, OAM.new [b0, b1, b2, b3, b4, b5] = .ok o ∧
      o.y = toI8 (packedYSpec ((b0 % 256) * 256 + b1 % 256)) ∧
      o.x = toI8 (packedXSpec ((b2 % 256) * 256 + b3 % 256)) ∧
      -128 ≤ o.x ∧ o.x ≤ 127 ∧ -128 ≤ o.y ∧ o.y ≤ 127 := by
  refine ⟨_, rfl, rfl, rfl, ?_, ?_, ?_, ?_⟩ <;>
    first
    | exact (toI8_bounds _).1
    | exact (toI8_bounds _).2

/-- Indexing a map over `List.range`. -/
theorem getD_map_range {α : Type} (f : Nat → α) (n i : Nat) (hi : i < n) (d : α) :
    ((List.range n).map f).getD i d = f i := by
  simp [List.getD_eq_getElem?_getD, List.getElem?_map, List.getElem?_range, hi]

/-- Indexing a map over a reversed `List.range`. -/
theorem getD_map_range_reverse {α : Type} (f : Nat → α) (n i : Nat) (hi : i < n)
    (d : α) : (((List.range n).reverse).map f).getD i d = f (n - 1 - i) := by
  have h2 : n - 1 - i < n := by omega
  rw [List.getD_eq_getElem?_getD, List.map_reverse,
    List.getElem?_reverse (by simpa using hi)]
  simp [List.getElem?_map, List.getElem?_range, h2]

/-- C6: the tile index at output position (r, c) is
`tile_base + col + row * 32` with stride 32, where flip only changes which
source row/column is visited (Horizontal reverses columns, Vertical reverses
rows, Both reverses both, None neither); and for tile_base=5, row=2, col=3,
flip=None the index is 72. -/
theorem claim_C6_tile_index_formula (o : OAM) (r c : Nat)
    (hr : r < (o.get_width_and_height).2)
    (hc : c < (o.get_width_and_height).1) :
    ((o.get_sprite_indexes).getD r []).getD c 0
      = o.tile + colTraversalSpec o.flip (o.get_width_and_height).1 c
          + rowTraversalSpec o.flip (o.get_width_and_height).2 r * 32 ∧
    ((OAM.get_sprite_indexes
        ⟨.Square, .Size2, .None, 0, 0, 0, 5, false, 0⟩).getD 2 []).getD 3 0
      = 72 := by
  constructor
  · unfold OAM.get_sprite_indexes
    cases hf : o.flip
    · simp only [hf]
      rw [getD_map_range _ _ _ hr, getD_map_range _ _ _ hc]
      simp [rowTraversalSpec, colTraversalSpec]
    · simp only [hf]
      rw [getD_map_range _ _ _ hr, getD_map_range_reverse _ _ _ hc]
      simp [rowTraversalSpec, colTraversalSpec]
    · simp only [hf]
      rw [getD_map_range_reverse _ _ _ hr, getD_map_range _ _ _ hc]
      simp [rowTraversalSpec, colTraversalSpec]
    · simp only [hf]
      rw [getD_map_range_reverse _ _ _ hr, getD_map_range_reverse _ _ _ hc]
      simp [rowTraversalSpec, colTraversalSpec]
  · rfl

/-- C6 witness: the formula theorem evaluated at a concrete 2×4 OAM with
flip Both, tile base 7, output row 1, output column 0. -/
theorem claim_C6_witness :
    ((OAM.get_sprite_indexes
        ⟨.Vertical, .Size2, .Both, 0, 0, 0, 7, false, 0⟩).getD 1 []).getD 0 0
      = 72 :=
  (claim_C6_tile_index_formula
    ⟨.Vertical, .Size2, .Both, 0, 0, 0, 7, false, 0⟩ 1 0
    (by decide) (by decide)).1

/-- Sum of a constant map. -/
theorem sum_map_constant {α : Type} (l : List α) (c : Nat) :
    (l.map (fun _ => c)).sum = l.length * c := by
  induction l with
  | nil => simp
  | cons a t ih => simp [ih, Nat.succ_mul, Nat.add_comm]

/-- The row-appending fold of `get_sprite_indexes_one_dimensional` is
list flattening. -/
theorem foldl_append_eq_flatten {α : Type} (ls : List (List α)) (acc : List α) :
    ls.foldl (fun a row => a ++ row) acc = acc ++ ls.flatten := by
  induction ls generalizing acc with
  | nil => simp
  | cons hd tl ih => simp [ih, List.append_assoc]

/-- C10: for every descriptor, `get_sprite_indexes` has exactly height rows
of exactly width entries each, with (width, height) from
`get_width_and_height`, and the one-dimensional variant is the row-major
flattening of that matrix, of length width * height. -/
theorem claim_C10_matrix_dimensions (o : OAM) :
    (o.get_sprite_indexes).length = (o.get_width_and_height).2 ∧
    (∀ row ∈ o.get_sprite_indexes, row.length = (o.get_width_and_height).1) ∧
    o.get_sprite_indexes_one_dimensional = (o.get_sprite_indexes).flatten ∧
    (o.get_sprite_indexes_one_dimensional).length
      = (o.get_width_and_height).1 * (o.get_width_and_height).2 := by
  have hflat : o.get_sprite_indexes_one_dimensional = (o.get_sprite_indexes).flatten := by
    unfold OAM.get_sprite_indexes_one_dimensional
    rw [foldl_append_eq_flatten]
    simp
  have hlen : (o.get_sprite_indexes).length = (o.get_width_and_height).2 := by
    unfold OAM.get_sprite_indexes
    cases o.flip <;> simp
  have hrow : ∀ row ∈ o.get_sprite_indexes,
      row.length = (o.get_width_and_height).1 := by
    intro row hrow
    unfold OAM.get_sprite_indexes at hrow
    rcases List.mem_map.mp (by simpa using hrow) with ⟨y, _, hy⟩
    cases hf : o.flip <;> simp [hf, ← hy]
  refine ⟨hlen, hrow, hflat, ?_⟩
  rw [hflat, List.length_flatten]
  have : (o.get_sprite_indexes).map List.length
      = (o.get_sprite_indexes).map (fun _ => (o.get_width_and_height).1) :=
    List.map_congr_left (fun row hr => hrow row hr)
  rw [this, sum_map_constant, hlen, Nat.mul_comm]

/-- C10 witness: the dimension theorem's row clause evaluated on a concrete
horizontal 4×2 OAM and one of its rows. -/
theorem claim_C10_witness :
    ([9, 10, 11, 12] : List Nat).length
      = ((OAM.get_width_and_height ⟨.Horizontal, .Size2, .None, 0, 0, 0, 9, false, 0⟩)).1 :=
  (claim_C10_matrix_dimensions
    ⟨.Horizontal, .Size2, .None, 0, 0, 0, 9, false, 0⟩).2.1
    [9, 10, 11, 12] (by decide)

/-- C7: for every Animation, offset and id, `move_anim_frame(0, n)` and
`move_anim_frame(id, 0)` report failure (`None`) before any write, so the
frame list is untouched, and `remove_anim_frame(0)` returns with the
animation unchanged (its `()` return carries no report; the unchanged-state
outcome is the failure). -/
theorem claim_C7_protected_noops (a : Animation) (n : Int) (id : Nat) :
    a.move_anim_frame 0 n = none ∧
    a.move_anim_frame id 0 = none ∧
    a.remove_anim_frame 0 = .ok a := by
  refine ⟨rfl, ?_, rfl⟩
  unfold Animation.move_anim_frame
  by_cases h : id = 0 <;> simp [h]

/-- C3 counterexample: on durations [3,5,2] the lookup returns 0 at elapsed
3 (not 1), 1 at elapsed 7 (not 2), and 2 at elapsed 10 (not 0): the advance
to the next frame happens one tick later than the claim states, and only
elapsed values strictly greater than the total reset to 0. -/
theorem claim_C3_counterexample :
    animC3.get_anim_frame_from_frames 3 = .ok 0 ∧
    animC3.get_anim_frame_from_frames 3 ≠ .ok 1 ∧
    animC3.get_anim_frame_from_frames 7 = .ok 1 ∧
    animC3.get_anim_frame_from_frames 7 ≠ .ok 2 ∧
    animC3.get_anim_frame_from_frames 10 = .ok 2 ∧
    animC3.get_anim_frame_from_frames 10 ≠ .ok 0 := by
  refine ⟨by decide, by decide, by decide, by decide, by decide, by decide⟩

/-- C3 amended: for durations [3,5,2] (total 10) the lookup returns index 0
for elapsed 0 through 3, index 1 for elapsed 4 through 8, index 2 for
elapsed 9 and 10, and 0 for every elapsed value of 11 or more. -/
theorem claim_C3_frame_lookup :
    (∀ n, n ≤ 3 → animC3.get_anim_frame_from_frames n = .ok 0) ∧
    (∀ n, 4 ≤ n → n ≤ 8 → animC3.get_anim_frame_from_frames n = .ok 1) ∧
    (∀ n, 9 ≤ n → n ≤ 10 → animC3.get_anim_frame_from_frames n = .ok 2) ∧
    (∀ n, 11 ≤ n → animC3.get_anim_frame_from_frames n = .ok 0) := by
  refine ⟨?_, ?_, ?_, ?_⟩
  · intro n hn
    interval_cases n <;> decide
  · intro n h1 h2
    interval_cases n <;> decide
  · intro n h1 h2
    interval_cases n <;> decide
  · intro n hn
    have htot : animC3.get_total_frames < n := by
      have h10 : animC3.get_total_frames = 10 := by decide
      omega
    unfold Animation.get_anim_frame_from_frames
    rw [if_pos htot]

/-- C3 witness: the amended lookup theorem applied at elapsed 2, 6 and 11,
one instance from each clause that the counterexample does not cover. -/
theorem claim_C3_witness :
    animC3.get_anim_frame_from_frames 2 = .ok 0 ∧
    animC3.get_anim_frame_from_frames 6 = .ok 1 ∧
    animC3.get_anim_frame_from_frames 11 = .ok 0 :=
  ⟨claim_C3_frame_lookup.1 2 (by decide),
   claim_C3_frame_lookup.2.1 6 (by decide) (by decide),
   claim_C3_frame_lookup.2.2.2 11 (by decide)⟩

/-- Six or more bytes decode without panic through the packed path. -/
theorem OAM.new_ok_of_length (bytes : List Nat) (h : 6 ≤ bytes.length) :
    ∃ o, OAM.new bytes = .ok o := by
  rcases bytes with _ | ⟨b0, _ | ⟨b1, _ | ⟨b2, _ | ⟨b3, _ | ⟨b4, _ | ⟨b5, rest⟩⟩⟩⟩⟩⟩ <;>
    simp_all [OAM.new]

/-- Eight or more bytes decode without panic through the binary path. -/
theorem OAM.from_bin_ok_of_length (bytes : List Nat) (h : 8 ≤ bytes.length) :
    ∃ o, OAM.from_bin bytes = .ok o := by
  rcases bytes with _ | ⟨b0, _ | ⟨b1, _ | ⟨b2, _ | ⟨b3, _ | ⟨b4, _ | ⟨b5,
    _ | ⟨b6, _ | ⟨b7, rest⟩⟩⟩⟩⟩⟩⟩⟩ <;> simp_all [OAM.from_bin]

/-- Scanning a NUL-terminated prefix of nonzero bytes succeeds and leaves
exactly the bytes after the NUL. -/
theorem scanName_append : ∀ (pre : List Nat), (∀ b ∈ pre, b ≠ 0) → ∀ rest,
    ∃ s, scanName (pre ++ 0 :: rest) = .ok (s, rest)
  | [], _, rest => ⟨"", by simp [scanName]⟩
  | b :: t, h, rest => by
    obtain ⟨s, hs⟩ := scanName_append t (fun x hx => h x (.tail _ hx)) rest
    have hb : b ≠ 0 := h b (.head _)
    refine ⟨⟨Char.ofNat b :: s.data⟩, ?_⟩
    simp [scanName, hb, hs]

/-- Reading `count` OAM records succeeds whenever `8 * count` bytes are
available. -/
theorem readOAMs_ok_of_length : ∀ (count : Nat) (bytes : List Nat),
    8 * count ≤ bytes.length → ∃ os, readOAMs count bytes = .ok os
  | 0, _, _ => ⟨[], rfl⟩
  | count + 1, bytes, h => by
    have h8 : ¬ bytes.length < 8 := by omega
    have hdrop : 8 * count ≤ (bytes.drop 8).length := by
      rw [List.length_drop]; omega
    obtain ⟨os, hos⟩ := readOAMs_ok_of_length count (bytes.drop 8) hdrop
    have htake : 8 ≤ (bytes.take 8).length := by
      rw [List.length_take]; omega
    obtain ⟨o, ho⟩ := OAM.from_bin_ok_of_length (bytes.take 8) htake
    exact ⟨o :: os, by simp [readOAMs, h8, ho, hos]⟩

/-- C2 counterexample: `AnimationCel::from_bin` panics on the empty buffer
(the name scan indexes `bin[0]` out of bounds), and `remove_anim_frame`
panics when the removed frame is first in list order (`index - 1`
underflows), so not every failure is an absence-of-result outcome. -/
theorem claim_C2_counterexample :
    AnimationCel.from_bin [] = .panic ∧
    Animation.remove_anim_frame ⟨[⟨"a", 3, 5⟩], "t", 0, 3⟩ 5 = .panic := by
  exact ⟨by decide, by decide⟩

/-- C2 amended: decode paths do not panic given enough bytes — `OAM::new`
with at least 6 bytes, `OAM::from_bin` with at least 8 — and
`AnimationCel::from_bin` succeeds whenever the buffer is a NUL-terminated
name followed by a count byte and at least 8·count further bytes; on
truncated or unterminated buffers the parsers panic rather than return an
absent result. -/
theorem claim_C2_no_panic_on_wellformed :
    (∀ bytes : List Nat, 6 ≤ bytes.length → OAM.new bytes ≠ .panic) ∧
    (∀ bytes : List Nat, 8 ≤ bytes.length → OAM.from_bin bytes ≠ .panic) ∧
    (∀ (pre : List Nat) (count : Nat) (rest : List Nat),
      (∀ b ∈ pre, b ≠ 0) → 8 * count ≤ rest.length →
      AnimationCel.from_bin (pre ++ 0 :: count :: rest) ≠ .panic) := by
  refine ⟨?_, ?_, ?_⟩
  · intro bytes h
    obtain ⟨o, ho⟩ := OAM.new_ok_of_length bytes h
    simp [ho]
  · intro bytes h
    obtain ⟨o, ho⟩ := OAM.from_bin_ok_of_length bytes h
    simp [ho]
  · intro pre count rest hpre hlen
    obtain ⟨s, hs⟩ := scanName_append pre hpre (count :: rest)
    obtain ⟨os, hos⟩ := readOAMs_ok_of_length count rest hlen
    simp [AnimationCel.from_bin, hs, hos]

/-- C2 witness: the no-panic theorem applied to a concrete 6-byte packed
record, a concrete 8-byte binary record, and a concrete one-record cel
buffer. -/
theorem claim_C2_witness :
    OAM.new [0, 0, 64, 0, 0, 0] ≠ .panic ∧
    OAM.from_bin [1, 2, 3, 4, 5, 6, 7, 8] ≠ .panic ∧
    AnimationCel.from_bin ([65] ++ 0 :: 1 :: [0, 0, 0, 0, 0, 0, 0, 0]) ≠ .panic :=
  ⟨claim_C2_no_panic_on_wellformed.1 _ (by decide),
   claim_C2_no_panic_on_wellformed.2.1 _ (by decide),
   claim_C2_no_panic_on_wellformed.2.2 [65] 1 [0, 0, 0, 0, 0, 0, 0, 0]
     (by decide) (by decide)⟩

/-- Sum of durations over an appended singleton. -/
theorem sumDur_append_singleton (l : List AnimationFrame) (f : AnimationFrame) :
    sumDur (l ++ [f]) = sumDur l + f.duration := by
  simp [sumDur]

/-- The last positioned frame of a nonempty conversion sits at the sum of
all durations but the last. -/
theorem convertDurGo_getLast_position :
    ∀ (fs : List AnimationFrame) (acc : Int), fs ≠ [] →
      ∃ p, (convertDurGo acc fs).getLast? = some p ∧
        p.position = acc + sumDur fs.dropLast
  | [], _, h => absurd rfl h
  | [f], acc, _ => ⟨⟨f.cell, acc, f.id⟩, by simp [convertDurGo, sumDur]⟩
  | f :: g :: r, acc, _ => by
    obtain ⟨p, hp, hpos⟩ :=
      convertDurGo_getLast_position (g :: r) (acc + f.duration) (by simp)
    refine ⟨p, ?_, ?_⟩
    · simp only [convertDurGo] at hp ⊢
      rw [List.getLast?_cons_cons]
      exact hp
    · rw [hpos, List.dropLast_cons₂]
      simp [sumDur]
      omega
  termination_by fs => fs.length

/-- `get_minimum_duration` of a nonempty animation is the sum of all frame
durations except the last. -/
theorem get_minimum_duration_eq (a : Animation) (h : a.frames ≠ []) :
    a.get_minimum_duration = sumDur a.frames.dropLast := by
  obtain ⟨p, hp, hpos⟩ := convertDurGo_getLast_position a.frames 0 h
  simp only [Animation.get_minimum_duration,
    Animation.convert_duration_frames_to_positioned]
  rw [hp]
  simp [hpos]

/-- C8 counterexample: with a single zero-duration frame and stored total
duration 300, update_duration writes 300 % 256 = 44 into the final frame,
so the durations afterwards sum to 44, not 300. -/
theorem claim_C8_counterexample :
    Animation.update_duration ⟨[⟨"a", 0, 0⟩], "t", 0, 300⟩
      = .ok ⟨[⟨"a", 44, 0⟩], "t", 0, 300⟩ ∧
    sumDur [⟨"a", 44, 0⟩] ≠ 300 := by
  exact ⟨by decide, by decide⟩

/-- C8 amended: for a non-empty Animation whose minimum duration is at most
the stored total duration and within u8 range of it, update_duration
replaces only the final frame's duration (all other frames and the frame's
cel and id are untouched), and the durations afterwards sum to the stored
total duration. -/
theorem claim_C8_update_duration (a : Animation) (h : a.frames ≠ [])
    (hmin : a.get_minimum_duration ≤ a.duration)
    (hrange : a.duration - a.get_minimum_duration < 256) :
    ∃ lastf : AnimationFrame,
      a.frames.getLast? = some lastf ∧
      a.update_duration = .ok { a with
        frames := a.frames.dropLast ++
          [⟨lastf.cell, a.duration - a.get_minimum_duration, lastf.id⟩] } ∧
      sumDur (a.frames.dropLast ++
          [⟨lastf.cell, a.duration - a.get_minimum_duration, lastf.id⟩])
        = a.duration := by
  obtain ⟨lastf, hlast⟩ :=
    Option.isSome_iff_exists.mp (List.getLast?_isSome.mpr h)
  refine ⟨lastf, hlast, ?_, ?_⟩
  · simp only [Animation.update_duration]
    rw [hlast]
    have hcond : ¬ a.duration < a.get_minimum_duration := by omega
    simp [hcond, Nat.mod_eq_of_lt hrange]
  · have hm := get_minimum_duration_eq a h
    rw [sumDur_append_singleton]
    have hd : (⟨lastf.cell, a.duration - a.get_minimum_duration, lastf.id⟩
        : AnimationFrame).duration = a.duration - a.get_minimum_duration := rfl
    rw [hd]
    omega

/-- C8 witness: the update theorem applied to a concrete two-frame
animation. -/
theorem claim_C8_witness :
    ∃ lastf : AnimationFrame,
      animC8w.frames.getLast? = some lastf ∧
      animC8w.update_duration = .ok { animC8w with
        frames := animC8w.frames.dropLast ++
          [⟨lastf.cell, animC8w.duration - animC8w.get_minimum_duration,
            lastf.id⟩] } ∧
      sumDur (animC8w.frames.dropLast ++
          [⟨lastf.cell, animC8w.duration - animC8w.get_minimum_duration,
            lastf.id⟩])
        = animC8w.duration :=
  claim_C8_update_duration animC8w (by decide) (by decide) (by decide)

/-- Every position produced by the prefix-sum conversion is at least the
starting accumulator. -/
theorem convertDurGo_position_le :
    ∀ (fs : List AnimationFrame) (acc : Int),
      ∀ p ∈ convertDurGo acc fs, acc ≤ p.position
  | [], _, p, hp => absurd hp (by simp [convertDurGo])
  | f :: rest, acc, p, hp => by
    simp only [convertDurGo, List.mem_cons] at hp
    rcases hp with h | h
    · subst h
      exact le_refl _
    · have h1 := convertDurGo_position_le rest (acc + f.duration) p h
      have h2 : (0 : Int) ≤ (f.duration : Int) := Int.natCast_nonneg _
      omega

/-- The prefix-sum conversion yields positions in ascending order. -/
theorem convertDurGo_sorted (fs : List AnimationFrame) (acc : Int) :
    (convertDurGo acc fs).Pairwise (fun a b => a.position ≤ b.position) := by
  induction fs generalizing acc with
  | nil => simp [convertDurGo]
  | cons f rest ih =>
    simp only [convertDurGo, List.pairwise_cons]
    refine ⟨?_, ih (acc + f.duration)⟩
    intro p hp
    have h1 := convertDurGo_position_le rest (acc + f.duration) p hp
    have h2 : (0 : Int) ≤ (f.duration : Int) := Int.natCast_nonneg _
    show acc ≤ p.position
    omega

/-- Inserting a frame no later than every list element puts it at the
head. -/
theorem insertMonotone_of_le (p : PositionedAnimationFrame) :
    ∀ l : List PositionedAnimationFrame,
      (∀ q ∈ l, p.position ≤ q.position) → insertMonotone p l = p :: l
  | [], _ => rfl
  | q :: rest, h => by
    rw [insertMonotone, if_pos (h q (by simp))]

/-- Sorting a list already ascending by position leaves it unchanged. -/
theorem sortByPosition_of_sorted :
    ∀ l : List PositionedAnimationFrame,
      l.Pairwise (fun a b => a.position ≤ b.position) → sortByPosition l = l
  | [], _ => rfl
  | p :: rest, h => by
    rw [List.pairwise_cons] at h
    rw [sortByPosition, sortByPosition_of_sorted rest h.2,
      insertMonotone_of_le p rest h.1]

/-- Sorting the already-ascending positioned prefix-sum list leaves it
unchanged. -/
theorem sortByPosition_convertDurGo (fs : List AnimationFrame) (acc : Int) :
    sortByPosition (convertDurGo acc fs) = convertDurGo acc fs :=
  sortByPosition_of_sorted _ (convertDurGo_sorted fs acc)

/-- `toU8` is the identity on naturals below 256. -/
theorem toU8_natCast (d : Nat) (h : d < 256) : toU8 (d : Int) = d := by
  unfold toU8
  rw [Int.emod_eq_of_lt (by positivity) (by exact_mod_cast h)]
  simp

/-- Rebuilding durations from the prefix-sum positions with the matching
total recovers the original frames. -/
theorem convertPosGo_convertDurGo :
    ∀ (fs : List AnimationFrame) (acc : Int),
      (∀ f ∈ fs, f.duration < 256) →
      convertPosGo (acc + sumDur fs) (convertDurGo acc fs) = fs
  | [], acc, _ => by simp [convertDurGo, convertPosGo]
  | [f], acc, h => by
    have hd : f.duration < 256 := h f (by simp)
    simp only [convertDurGo, convertPosGo, sumDur, List.map_cons, List.map_nil,
      List.sum_cons, List.sum_nil]
    have : acc + ((f.duration : Nat) + 0 : Nat) - acc = (f.duration : Int) := by
      push_cast
      ring
    rw [this, toU8_natCast f.duration hd]
  | f :: g :: r, acc, h => by
    have hd : f.duration < 256 := h f (by simp)
    have ih := convertPosGo_convertDurGo (g :: r) (acc + f.duration)
      (fun x hx => h x (by simp [hx]))
    have hsum : acc + (sumDur (f :: g :: r) : Int)
        = (acc + f.duration) + (sumDur (g :: r) : Int) := by
      simp only [sumDur, List.map_cons, List.sum_cons]
      push_cast
      ring
    rw [hsum]
    simp only [convertDurGo, convertPosGo] at ih ⊢
    rw [List.cons.injEq]
    constructor
    · have : acc + (f.duration : Int) - acc = (f.duration : Int) := by ring
      rw [this, toU8_natCast f.duration hd]
    · exact ih
  termination_by fs => fs.length

/-- C4: converting a frame list to positioned form and back, with total
duration equal to the sum of the list's durations, recovers the original
list: same order, same cel names and ids, same durations. -/
theorem claim_C4_roundtrip (fs : List AnimationFrame)
    (h : ∀ f ∈ fs, f.duration < 256) :
    Animation.convert_positioned_frames_to_duration
      (Animation.convert_duration_frames_to_positioned fs) (sumDur fs) = fs := by
  unfold Animation.convert_positioned_frames_to_duration
    Animation.convert_duration_frames_to_positioned
  rw [sortByPosition_convertDurGo]
  have hgo := convertPosGo_convertDurGo fs 0 h
  simpa using hgo

/-- C4 witness: the round-trip theorem applied to a concrete two-frame
list. -/
theorem claim_C4_witness :
    Animation.convert_positioned_frames_to_duration
      (Animation.convert_duration_frames_to_positioned
        [⟨"a", 3, 0⟩, ⟨"b", 5, 1⟩])
      (sumDur [⟨"a", 3, 0⟩, ⟨"b", 5, 1⟩])
      = [⟨"a", 3, 0⟩, ⟨"b", 5, 1⟩] :=
  claim_C4_roundtrip [⟨"a", 3, 0⟩, ⟨"b", 5, 1⟩] (by decide)

/-- In a well-spaced list the head position is at most the total duration. -/
theorem okSpaced_head_le :
    ∀ (l : List PositionedAnimationFrame) (D : Int),
      okSpaced D l → l ≠ [] → headPosition l ≤ D
  | [], _, _, hne => absurd rfl hne
  | [f], _, h, _ => h.1
  | f :: g :: r, D, h, _ =>
    le_trans h.1 (okSpaced_head_le (g :: r) D h.2.2 (by simp))

/-- `toU8` on an integer already within u8 range. -/
theorem toU8_int_eq (x : Int) (h0 : 0 ≤ x) (h1 : x < 256) :
    (toU8 x : Int) = x := by
  unfold toU8
  rw [Int.emod_eq_of_lt h0 h1, Int.toNat_of_nonneg h0]

/-- On a nonempty well-spaced list, the rebuilt durations sum to the total
duration minus the head position. -/
theorem convertPosGo_sum :
    ∀ (l : List PositionedAnimationFrame) (D : Int),
      okSpaced D l → l ≠ [] →
      (sumDur (convertPosGo D l) : Int) = D - headPosition l
  | [], _, _, hne => absurd rfl hne
  | [f], D, h, _ => by
    obtain ⟨ha, hb⟩ := h
    simp only [convertPosGo, sumDur, List.map_cons, List.map_nil,
      List.sum_cons, List.sum_nil, headPosition, Nat.add_zero]
    rw [toU8_int_eq (D - f.position) (by omega) hb]
  | f :: g :: r, D, h, _ => by
    obtain ⟨hfg, hgap, hrest⟩ := h
    have ih := convertPosGo_sum (g :: r) D hrest (by simp)
    simp only [convertPosGo, sumDur, List.map_cons, List.sum_cons,
      headPosition] at ih ⊢
    push_cast at ih ⊢
    rw [toU8_int_eq (g.position - f.position) (by omega) hgap]
    omega

/-- A successful position edit yields a nonempty list. -/
theorem editFirstPosition_ne_nil :
    ∀ (frame_id : Nat) (offset : Int)
      (xs l : List PositionedAnimationFrame),
      editFirstPosition frame_id offset xs = some l → l ≠ []
  | _, _, [], _, h => by simp [editFirstPosition] at h
  | fid, off, f :: rest, l, h => by
    simp only [editFirstPosition] at h
    by_cases hid : f.id = fid
    · rw [if_pos hid] at h
      cases h
      simp
    · rw [if_neg hid] at h
      obtain ⟨l2, _, hl⟩ := Option.map_eq_some'.mp h
      rw [← hl]
      simp

/-- Sorting preserves nonemptiness. -/
theorem insertMonotone_ne_nil (p : PositionedAnimationFrame) :
    ∀ l : List PositionedAnimationFrame, insertMonotone p l ≠ []
  | [] => by simp [insertMonotone]
  | q :: rest => by
    rw [insertMonotone]
    split <;> simp

theorem sortByPosition_ne_nil (l : List PositionedAnimationFrame)
    (h : l ≠ []) : sortByPosition l ≠ [] := by
  match l with
  | [] => exact absurd rfl h
  | p :: rest =>
    rw [sortByPosition]
    exact insertMonotone_ne_nil p (sortByPosition rest)

/-- Removing a frame and folding its duration into its predecessor leaves
the sum of durations unchanged. -/
theorem sumDur_remove_merge :
    ∀ (fs : List AnimationFrame) (j : Nat) (removed pred : AnimationFrame),
      fs.get? (j + 1) = some removed →
      (fs.eraseIdx (j + 1)).get? j = some pred →
      sumDur ((fs.eraseIdx (j + 1)).set j
        ⟨pred.cell, pred.duration + removed.duration, pred.id⟩) = sumDur fs
  | [], _, _, _, h, _ => by simp at h
  | f :: rest, 0, removed, pred, h, hp => by
    match rest, h, hp with
    | r0 :: rest2, h, hp =>
      simp only [List.get?_cons_succ, List.get?_cons_zero,
        Option.some.injEq] at h
      subst h
      simp only [List.eraseIdx_cons_succ, List.eraseIdx_cons_zero,
        List.get?_cons_zero, Option.some.injEq] at hp
      subst hp
      simp only [List.eraseIdx_cons_succ, List.eraseIdx_cons_zero,
        List.set_cons_zero, sumDur, List.map_cons, List.sum_cons]
      omega
  | f :: rest, j + 1, removed, pred, h, hp => by
    have ih := sumDur_remove_merge rest j removed pred
      (by simpa using h) (by simpa using hp)
    simp only [List.eraseIdx_cons_succ, List.set_cons_succ, sumDur,
      List.map_cons, List.sum_cons] at ih ⊢
    omega

/-- The frame loop of the binary animation parser accumulates exactly the
sum of the parsed durations. -/
theorem animBinFrames_sum :
    ∀ (bin : List Nat) (cell : String) (fid : Nat)
      (fs : List AnimationFrame) (total : Nat),
      animBinFrames cell fid bin = .ok (fs, total) → sumDur fs = total
  | [], _, _, fs, total, h => by
    simp only [animBinFrames, PResult.ok.injEq, Prod.mk.injEq] at h
    obtain ⟨h1, h2⟩ := h
    subst h1
    subst h2
    simp [sumDur]
  | [b], cell, fid, fs, total, h => by
    unfold animBinFrames at h
    by_cases hb : b = 0
    · rw [if_pos hb] at h
      simp at h
    · rw [if_neg hb] at h
      exact animBinFrames_sum [] (cell.push (Char.ofNat b)) fid fs total h
  | b :: d :: rest2, cell, fid, fs, total, h => by
    unfold animBinFrames at h
    by_cases hb : b = 0
    · rw [if_pos hb] at h
      have h2 : (match animBinFrames "" (fid + 1) rest2 with
          | PResult.panic => PResult.panic
          | PResult.ok (fs2, tot2) =>
            PResult.ok (⟨cell, d % 256, fid⟩ :: fs2, tot2 + d % 256))
          = PResult.ok (fs, total) := h
      cases hrec : animBinFrames "" (fid + 1) rest2 with
      | panic => rw [hrec] at h2; simp at h2
      | ok p =>
        rw [hrec] at h2
        obtain ⟨fs2, tot2⟩ := p
        simp only [PResult.ok.injEq, Prod.mk.injEq] at h2
        obtain ⟨hfs, htot⟩ := h2
        have ihsum := animBinFrames_sum rest2 "" (fid + 1) fs2 tot2 hrec
        subst hfs
        subst htot
        simp only [sumDur, List.map_cons, List.sum_cons] at ihsum ⊢
        omega
    · rw [if_neg hb] at h
      exact animBinFrames_sum (d :: rest2) (cell.push (Char.ofNat b)) fid fs total h
  termination_by bin => bin.length

/-- C1 counterexample: on an animation with durations [3,5] and total 8
(where the invariant holds), `move_anim_frame(1, -7)` moves frame 1 to
position -4; converting back yields durations [4, 8], which sum to 12, not
8, so the invariant is not preserved by every move. -/
theorem claim_C1_counterexample :
    sumDur animC1cex.frames = animC1cex.duration ∧
    (animC1cex.move_anim_frame 1 (-7)).map (fun x => sumDur x.frames)
      = some 12 ∧
    animC1cex.duration = 8 :=
  ⟨by decide, by decide, by decide⟩

/-- C1 amended: a binary-parsed Animation satisfies sum of durations =
stored total duration; the equality is preserved by `remove_anim_frame`
whenever it completes without panicking, and by `move_anim_frame` and
`insert_anim_frame` whenever the edited positioned list, sorted, starts at
position 0, has consecutive gaps below 256, and ends at most the total
duration with the remainder below 256 (outside those ranges the `as u8`
casts truncate and the equality can break, as the counterexample shows). -/
theorem claim_C1_duration_invariant :
    (∀ (bin : List Nat) (a : Animation),
      Animation.from_bin bin = .ok (some a) → sumDur a.frames = a.duration) ∧
    (∀ (a : Animation) (frame_id : Nat) (offset : Int)
        (l : List PositionedAnimationFrame) (a' : Animation),
      editFirstPosition frame_id offset
          (Animation.convert_duration_frames_to_positioned a.frames)
        = some l →
      headPosition (sortByPosition l) = 0 →
      okSpaced (a.duration : Int) (sortByPosition l) →
      a.move_anim_frame frame_id offset = some a' →
      sumDur a'.frames = a'.duration) ∧
    (∀ (a : Animation) (cell : String) (position : Int),
      sumDur a.frames = a.duration →
      headPosition (sortByPosition (insertedPositioned a cell position)) = 0 →
      okSpaced (a.duration : Int)
          (sortByPosition (insertedPositioned a cell position)) →
      sumDur (a.insert_anim_frame cell position).frames
        = (a.insert_anim_frame cell position).duration) ∧
    (∀ (a : Animation) (frame_id : Nat) (a' : Animation),
      sumDur a.frames = a.duration →
      a.remove_anim_frame frame_id = .ok a' →
      sumDur a'.frames = a'.duration) := by
  refine ⟨?_, ?_, ?_, ?_⟩
  · intro bin a h
    unfold Animation.from_bin at h
    split at h
    · simp at h
    · split at h
      · simp at h
      · simp only [PResult.ok.injEq, Option.some.injEq] at h
        subst h
        rename_i fs total hfr
        exact animBinFrames_sum _ "" 0 fs total hfr
  · intro a frame_id offset l a' hedit hhead hok hmove
    unfold Animation.move_anim_frame at hmove
    by_cases h0 : frame_id = 0
    · rw [if_pos h0] at hmove; simp at hmove
    rw [if_neg h0] at hmove
    by_cases hoff : offset = 0
    · rw [if_pos hoff] at hmove; simp at hmove
    rw [if_neg hoff, hedit] at hmove
    simp only [Option.some.injEq] at hmove
    subst hmove
    have hne : sortByPosition l ≠ [] :=
      sortByPosition_ne_nil l (editFirstPosition_ne_nil _ _ _ _ hedit)
    have hsum := convertPosGo_sum (sortByPosition l) a.duration hok hne
    rw [hhead] at hsum
    show sumDur (Animation.convert_positioned_frames_to_duration
      l a.duration) = a.duration
    unfold Animation.convert_positioned_frames_to_duration
    omega
  · intro a cell position hinv hhead hok
    have hne : sortByPosition (insertedPositioned a cell position) ≠ [] :=
      sortByPosition_ne_nil _ (by simp [insertedPositioned])
    have hsum := convertPosGo_sum (sortByPosition
      (insertedPositioned a cell position)) a.duration hok hne
    rw [hhead] at hsum
    show sumDur (Animation.convert_positioned_frames_to_duration
      (insertedPositioned a cell position) a.duration) = a.duration
    unfold Animation.convert_positioned_frames_to_duration
    omega
  · intro a frame_id a' hinv hrem
    unfold Animation.remove_anim_frame at hrem
    split at hrem
    · simp only [PResult.ok.injEq] at hrem
      subst hrem
      exact hinv
    · split at hrem
      · simp only [PResult.ok.injEq] at hrem
        subst hrem
        exact hinv
      · split at hrem
        · simp at hrem
        · split at hrem
          · simp at hrem
          · simp only [] at hrem
            split at hrem
            · simp at hrem
            · split at hrem
              · simp at hrem
              · simp only [PResult.ok.injEq] at hrem
                subst hrem
                exact (sumDur_remove_merge a.frames _ _ _
                  (by assumption) (by assumption)).trans hinv

/-- C1 witness: the move clause of the invariant theorem applied to the
concrete animation with durations [3,5], total 8, moving frame 1 by +2. -/
theorem claim_C1_witness :
    sumDur (⟨[⟨"a", 5, 0⟩, ⟨"b", 3, 1⟩], "t", 0, 8⟩ : Animation).frames
      = (⟨[⟨"a", 5, 0⟩, ⟨"b", 3, 1⟩], "t", 0, 8⟩ : Animation).duration :=
  claim_C1_duration_invariant.2.1 animC1cex 1 2
    [⟨"a", 0, 0⟩, ⟨"b", 5, 1⟩]
    ⟨[⟨"a", 5, 0⟩, ⟨"b", 3, 1⟩], "t", 0, 8⟩
    (by decide) (by decide) (by decide) (by decide)
